import Mathlib

/-!
Verification development for the behavior-tree execution engine in `src/Player.js`.

The engine is embedded shallowly: the mutable JS objects become immutable trees that
each `tick` returns in updated form, and a thrown JS `TypeError` (e.g. ticking
`undefined`) is modelled as the `none` case of the outer `Option`.  A JS function
that falls off its end returns `undefined`; since composite `tick`s can do so, the
returned value is `Option Status`, with `none` standing for `undefined`.

Calls on the world handle (the `warrior` object inside the turn state) are recorded
in a log.  Each leaf action reports the names of the warrior operations it performs
and the engine tags them with origin `leaf`; the one warrior call made by the engine
itself (`state.warrior.think` inside the `delay` decorator) is tagged `engine`.
-/

namespace Player

/-- `Status` from `Player.js`: the three string constants `Success`, `Failure`,
`Running`. -/
inductive Status where
  | Success
  | Failure
  | Running
deriving DecidableEq, Repr

/-- Who invoked a world-handle (warrior) operation: a leaf `Action`'s function, or
the engine code itself (composites / decorator hooks). -/
inductive WOrigin where
  | leaf
  | engine
deriving DecidableEq, Repr

/-- One world-handle call observed during a tick: its origin and the name of the
warrior operation invoked. -/
structure LogEntry where
  origin : WOrigin
  op : String
deriving DecidableEq, Repr

/-- The mutable per-decorator instance fields of `Decorator` objects:
`_storedResult` (used by `delay`; JS `undefined`/`null`/unset are all falsy and
observationally identical, so they collapse to `none`), `done` (used by `until`;
initially JS `undefined`, i.e. `false`), and `should_skip` (set by the constructor
to `false`, written by `delay` and `until`). -/
structure DecSelf where
  storedResult : Option Status
  done : Bool
  should_skip : Bool
deriving DecidableEq, Repr

/-- A behavior-tree node, embedding the node classes of `Player.js` over an opaque
turn-state type `σ`.

* `action name act` — class `Action`; `act` is the wrapped function, returning the
  `Status` it produces on a given turn state together with the names of the warrior
  operations it invoked.
* `sequence name keepState children enum` / `selector …` — classes `Sequence` and
  `Selector`.  `enum = none` models `this.enumerator` being `undefined` (no tick
  yet); `enum = some i` models an existing `Enumerator` whose `currentIndex` is `i`
  (its `nodes` alias `children`).
* `notD` / `delayD` / `untilD` — class `Decorator` instantiated with the hooks of
  the three stock decorators `not`, `delay` and `until`; `child = none` models a
  decorator that was never `bind`-ed (`this.node` is `undefined`). -/
inductive Tree (σ : Type) where
  | action (name : String) (act : σ → Status × List String)
  | sequence (name : String) (keepState : Bool) (children : List (Tree σ)) (enum : Option Nat)
  | selector (name : String) (keepState : Bool) (children : List (Tree σ)) (enum : Option Nat)
  | notD (child : Option (Tree σ)) (self : DecSelf)
  | delayD (child : Option (Tree σ)) (self : DecSelf)
  | untilD (pred : σ → Bool) (child : Option (Tree σ)) (self : DecSelf)

/-- Class `Enumerator`: a list of nodes plus `currentIndex`. -/
structure Enumerator (σ : Type) where
  nodes : List (Tree σ)
  currentIndex : Nat

/-- `Enumerator.current`: `this.nodes[this.currentIndex]`, which is `undefined`
(`none`) when the index is out of range. -/
def Enumerator.current {σ : Type} (e : Enumerator σ) : Option (Tree σ) :=
  e.nodes[e.currentIndex]?

/-- The JS expression `this.current` (no call!) looks the property up on the
prototype and yields the method `current` itself — a function object, which is a
defined value.  We model that property lookup: `some` because the class does define
the method. -/
def Enumerator.currentMethod (σ : Type) : Option (Enumerator σ → Option (Tree σ)) :=
  some Enumerator.current

/-- `Enumerator.isStarted`: the JS body is `return this.current !== undefined` and
compares the *method* `current` (see `Enumerator.currentMethod`) — not its value —
against `undefined`. -/
def Enumerator.isStarted {σ : Type} (_e : Enumerator σ) : Bool :=
  (Enumerator.currentMethod σ).isSome

/-- `Enumerator.hasNext`: `this.currentIndex < this.nodes.length - 1` (on natural
numbers this matches the JS comparison for every reachable index). -/
def Enumerator.hasNext {σ : Type} (e : Enumerator σ) : Bool :=
  e.currentIndex < e.nodes.length - 1

/-- `Enumerator.reset`: `this.currentIndex = 0`. -/
def Enumerator.reset {σ : Type} (e : Enumerator σ) : Enumerator σ :=
  { e with currentIndex := 0 }

/-- `Enumerator.next`: increment `currentIndex` iff `hasNext()`, reporting whether
it moved. -/
def Enumerator.next {σ : Type} (e : Enumerator σ) : Enumerator σ × Bool :=
  if e.hasNext then ({ e with currentIndex := e.currentIndex + 1 }, true)
  else (e, false)

/-- The index at which a composite's traversal starts on a given tick.  JS:
`if (!this.enumerator || !this.keepState) { this.init() }` — `init` makes a fresh
`Enumerator` at index 0; otherwise the stored enumerator keeps its index. -/
def startIndex (keepState : Bool) (enum : Option Nat) : Nat :=
  match enum, keepState with
  | some i, true => i
  | _, _ => 0

/-- The outcome of a successful (non-throwing) `tick` call: the returned JS value
(`some` a `Status`, or `none` for `undefined`), the node in its updated state, and
the world-handle operations performed, in order. -/
structure TickOk (σ : Type) where
  value : Option Status
  tree : Tree σ
  log : List LogEntry

/-- The outcome of a composite's child-traversal loop: returned value, the updated
children array, the enumerator index after the loop, and the log. -/
structure GoOut (σ : Type) where
  value : Option Status
  children : List (Tree σ)
  index : Nat
  log : List LogEntry

/-- The after-hook of the `not` decorator: swap `Success` and `Failure`, return
anything else unchanged. -/
def notAfter (v : Option Status) : Option Status :=
  if v = some Status.Success then some Status.Failure
  else if v = some Status.Failure then some Status.Success
  else v

/-- The after-hook of the `delay` decorator: returned value, updated self, and the
world-handle calls the hook itself makes (`state.warrior.think` when a stored
result is released).  With a stored result present, that result is returned and the
fresh child result `v` is discarded; otherwise `v` is stored and `Running`
returned. -/
def delayAfter (v : Option Status) (self : DecSelf) :
    Option Status × DecSelf × List LogEntry :=
  match self.storedResult with
  | some w => (some w, ⟨none, self.done, false⟩, [⟨.engine, "think"⟩])
  | none => (some Status.Running, ⟨v, self.done, true⟩, [])

/-- The before-hook of the `until` decorator: evaluate the predicate; if it holds,
set `done` and `should_skip`.  The turn state is returned unchanged either way. -/
def untilBefore {σ : Type} (pred : σ → Bool) (s : σ) (self : DecSelf) : DecSelf :=
  cond (pred s) ⟨self.storedResult, true, true⟩ self

/-- The after-hook of the `until` decorator: `Failure` propagates; otherwise
`Success` (clearing `done` and `should_skip`) if `done` is set, else `Running`. -/
def untilAfter (v : Option Status) (self1 : DecSelf) : Option Status × DecSelf :=
  if v = some Status.Failure then (v, self1)
  else
    cond self1.done
      (some Status.Success, ⟨self1.storedResult, false, false⟩)
      (some Status.Running, self1)

theorem sizeOf_drop_le {α : Type} [SizeOf α] :
    ∀ (i : Nat) (l : List α), sizeOf (l.drop i) ≤ sizeOf l := by
  intro i
  induction i with
  | zero => intro l; simp
  | succ n ih =>
    intro l
    cases l with
    | nil => simp
    | cons c cs =>
      have h := ih cs
      simp only [List.drop_succ_cons]
      simp only [List.cons.sizeOf_spec]
      omega

mutual

/-- `tick(state)` of each node class, threading the node's updated mutable state
and logging world-handle calls.  Outer `none` models a thrown `TypeError`
(ticking `undefined`: an out-of-range `current()` in a composite, or an unbound
decorator's `this.node`). -/
def tick {σ : Type} : Tree σ → σ → Option (TickOk σ)
  | .action name act, s =>
      -- Action.tick: `const result = this.action(state); return result`
      let r := act s
      some ⟨some r.1, .action name act, r.2.map (fun o => ⟨.leaf, o⟩)⟩
  | .sequence name ks children enum, s =>
      -- `if (!this.enumerator || !this.keepState) { this.init() }`
      -- then `if (!this.enumerator.isStarted()) { return Status.Running }`
      cond (Enumerator.mk children (startIndex ks enum)).isStarted
        -- the do/while loop, with the children split at the cursor:
        -- `current()` is the head of `children.drop i` and `hasNext()` holds
        -- iff the tail is nonempty
        ((seqGo s (children.take (startIndex ks enum)) (children.drop (startIndex ks enum))).map
          (fun g => ⟨g.value, .sequence name ks g.children (some g.index), g.log⟩))
        (some ⟨some .Running, .sequence name ks children (some (startIndex ks enum)), []⟩)
  | .selector name ks children enum, s =>
      cond (Enumerator.mk children (startIndex ks enum)).isStarted
        ((selGo s (children.take (startIndex ks enum)) (children.drop (startIndex ks enum))).map
          (fun g => ⟨g.value, .selector name ks g.children (some g.index), g.log⟩))
        (some ⟨some .Running, .selector name ks children (some (startIndex ks enum)), []⟩)
  | .notD child self, s =>
      match child with
      | none => none  -- `this.node` is undefined: `this.node.tick` throws
      | some c =>
        (tick c s).map (fun r => ⟨notAfter r.value, .notD (some r.tree) self, r.log⟩)
  | .delayD child self, s =>
      match child with
      | none => none
      | some c =>
        (tick c s).map (fun r =>
          let p := delayAfter r.value self
          ⟨p.1, .delayD (some r.tree) p.2.1, r.log ++ p.2.2⟩)
  | .untilD pred child self, s =>
      match child with
      | none => none
      | some c =>
        -- the before-hook runs, then the child is ticked, then the after-hook
        -- reads the `done` flag the before-hook left on `self`
        (tick c s).map (fun r =>
          let p := untilAfter r.value (untilBefore pred s self)
          ⟨p.1, .untilD pred (some r.tree) p.2, r.log⟩)
termination_by t _ => sizeOf t
decreasing_by
  all_goals simp_wf
  all_goals first
    | (have h := sizeOf_drop_le (startIndex ks enum) children; omega)
    | omega

/-- The do/while loop of `Sequence.tick`.  `pre` are the children strictly before
the cursor (untouched this traversal), `rest` those from the cursor on; the cursor
index is `pre.length`.  An empty `rest` means `current()` is `undefined` and
`undefined.tick(state)` throws. -/
def seqGo {σ : Type} (s : σ) (pre rest : List (Tree σ)) : Option (GoOut σ) :=
  match rest with
  | [] => none
  | c :: rs =>
    match tick c s with
    | none => none
    | some r =>
      -- `if (status !== Status.Success) { if (status === Status.Failure) reset; return }`
      match r.value with
      | some Status.Success =>
        -- `while (this.enumerator.next())`: `next` moves iff `hasNext`, i.e. iff
        -- the remaining tail is nonempty; otherwise `reset(); return status`
        cond rs.isEmpty
          (some ⟨some Status.Success, pre ++ [r.tree], 0, r.log⟩)
          ((seqGo s (pre ++ [r.tree]) rs).map
            (fun g => ⟨g.value, g.children, g.index, r.log ++ g.log⟩))
      | some Status.Failure => some ⟨some Status.Failure, pre ++ r.tree :: rs, 0, r.log⟩
      | some Status.Running => some ⟨some Status.Running, pre ++ r.tree :: rs, pre.length, r.log⟩
      | none => some ⟨none, pre ++ r.tree :: rs, pre.length, r.log⟩
termination_by sizeOf rest
decreasing_by
  all_goals simp_wf
  all_goals omega

/-- The do/while loop of `Selector.tick`, same conventions as `seqGo`.  The
`switch` has no `default`, so a child result that is neither `Running`, `Success`
nor `Failure` (i.e. `undefined`) falls through and continues like `Failure`.
Exhausting all children runs `reset()` and falls off the function: the returned
value is `undefined` (`none`). -/
def selGo {σ : Type} (s : σ) (pre rest : List (Tree σ)) : Option (GoOut σ) :=
  match rest with
  | [] => none
  | c :: rs =>
    match tick c s with
    | none => none
    | some r =>
      match r.value with
      | some Status.Running => some ⟨some .Running, pre ++ r.tree :: rs, pre.length, r.log⟩
      | some Status.Success => some ⟨some .Success, pre ++ r.tree :: rs, 0, r.log⟩
      | some Status.Failure =>
        cond rs.isEmpty
          (some ⟨none, pre ++ [r.tree], 0, r.log⟩)
          ((selGo s (pre ++ [r.tree]) rs).map
            (fun g => ⟨g.value, g.children, g.index, r.log ++ g.log⟩))
      | none =>
        cond rs.isEmpty
          (some ⟨none, pre ++ [r.tree], 0, r.log⟩)
          ((selGo s (pre ++ [r.tree]) rs).map
            (fun g => ⟨g.value, g.children, g.index, r.log ++ g.log⟩))
termination_by sizeOf rest
decreasing_by
  all_goals simp_wf
  all_goals omega

end

/-- One-step unfolding of `seqGo` on a nonempty remainder. -/
theorem seqGo_cons {σ : Type} (s : σ) (pre : List (Tree σ)) (c : Tree σ) (rs : List (Tree σ)) :
    seqGo s pre (c :: rs)
      = match tick c s with
        | none => none
        | some r =>
          match r.value with
          | some Status.Success =>
            cond rs.isEmpty
              (some ⟨some Status.Success, pre ++ [r.tree], 0, r.log⟩)
              ((seqGo s (pre ++ [r.tree]) rs).map
                (fun g => ⟨g.value, g.children, g.index, r.log ++ g.log⟩))
          | some Status.Failure => some ⟨some Status.Failure, pre ++ r.tree :: rs, 0, r.log⟩
          | some Status.Running =>
            some ⟨some Status.Running, pre ++ r.tree :: rs, pre.length, r.log⟩
          | none => some ⟨none, pre ++ r.tree :: rs, pre.length, r.log⟩ := by
  rw [seqGo.eq_def]

/-- One-step unfolding of `selGo` on a nonempty remainder. -/
theorem selGo_cons {σ : Type} (s : σ) (pre : List (Tree σ)) (c : Tree σ) (rs : List (Tree σ)) :
    selGo s pre (c :: rs)
      = match tick c s with
        | none => none
        | some r =>
          match r.value with
          | some Status.Running =>
            some ⟨some Status.Running, pre ++ r.tree :: rs, pre.length, r.log⟩
          | some Status.Success => some ⟨some Status.Success, pre ++ r.tree :: rs, 0, r.log⟩
          | some Status.Failure =>
            cond rs.isEmpty
              (some ⟨none, pre ++ [r.tree], 0, r.log⟩)
              ((selGo s (pre ++ [r.tree]) rs).map
                (fun g => ⟨g.value, g.children, g.index, r.log ++ g.log⟩))
          | none =>
            cond rs.isEmpty
              (some ⟨none, pre ++ [r.tree], 0, r.log⟩)
              ((selGo s (pre ++ [r.tree]) rs).map
                (fun g => ⟨g.value, g.children, g.index, r.log ++ g.log⟩))
          := by
  rw [selGo.eq_def]

/-! ### Basic facts about the enumerator and the composite dispatch -/

variable {σ : Type}

/-- Sanity check for the `pre`/`rest` loop representation: `current()` on the
split list is the head of `rest`. -/
theorem enumerator_current_split (pre : List (Tree σ)) (c : Tree σ) (rs : List (Tree σ)) :
    (Enumerator.mk (pre ++ c :: rs) pre.length).current = some c := by
  simp only [Enumerator.current]
  rw [List.getElem?_append_right (Nat.le_refl _)]
  simp

/-- Sanity check: `hasNext()` at the split point holds iff the tail `rs` is
nonempty. -/
theorem enumerator_hasNext_split (pre : List (Tree σ)) (c : Tree σ) (rs : List (Tree σ)) :
    (Enumerator.mk (pre ++ c :: rs) pre.length).hasNext = !rs.isEmpty := by
  cases rs with
  | nil => simp [Enumerator.hasNext]
  | cons a l => simp [Enumerator.hasNext]

/-- A list with an element after the prefix is not empty. -/
theorem isEmpty_append_cons {α : Type} (l1 : List α) (a : α) (l2 : List α) :
    (l1 ++ a :: l2).isEmpty = false := by
  cases l1 <;> simp

/-- `Sequence.tick` dispatches to the traversal loop started at `startIndex`;
the `isStarted` guard never intervenes. -/
theorem tick_sequence (name : String) (ks : Bool) (ch : List (Tree σ)) (enum : Option Nat)
    (s : σ) :
    tick (.sequence name ks ch enum) s
      = (seqGo s (ch.take (startIndex ks enum)) (ch.drop (startIndex ks enum))).map
          (fun g => ⟨g.value, .sequence name ks g.children (some g.index), g.log⟩) := by
  simp [tick, Enumerator.isStarted, Enumerator.currentMethod]

/-- `Selector.tick` dispatches to the traversal loop started at `startIndex`;
the `isStarted` guard never intervenes. -/
theorem tick_selector (name : String) (ks : Bool) (ch : List (Tree σ)) (enum : Option Nat)
    (s : σ) :
    tick (.selector name ks ch enum) s
      = (selGo s (ch.take (startIndex ks enum)) (ch.drop (startIndex ks enum))).map
          (fun g => ⟨g.value, .selector name ks g.children (some g.index), g.log⟩) := by
  simp [tick, Enumerator.isStarted, Enumerator.currentMethod]

/-! ### Traversal-loop lemmas -/

/-- A child together with its tick outcome during one traversal: the child ticked
to `some r` (no fault) and returned `Success`. -/
def TickedSuccess (s : σ) (c : Tree σ) (r : TickOk σ) : Prop :=
  tick c s = some r ∧ r.value = some Status.Success

/-- The child ticked to `some r` and its value makes a `Selector` move on: JS
`Failure`, or `undefined` falling through the `switch`. -/
def TickedSelAdvance (s : σ) (c : Tree σ) (r : TickOk σ) : Prop :=
  tick c s = some r ∧ (r.value = some Status.Failure ∨ r.value = none)

/-- If every remaining child ticks to `Success`, the sequence loop returns
`Success` with the cursor reset to 0, the children replaced by their updated
forms, and the concatenation of the children's logs. -/
theorem seqGo_all_success (s : σ) :
    ∀ (rest results : List _) (pre : List (Tree σ)),
      rest ≠ [] → List.Forall₂ (TickedSuccess s) rest results →
      seqGo s pre rest
        = some ⟨some Status.Success, pre ++ results.map (fun r => r.tree), 0,
            (results.map (fun r => r.log)).flatten⟩ := by
  intro rest
  induction rest with
  | nil => intro results pre hne _; exact absurd rfl hne
  | cons c rs ih =>
    intro results pre _ hall
    cases hall with
    | cons h1 htl =>
      rename_i r results'
      obtain ⟨hc, hv⟩ := h1
      cases rs with
      | nil =>
        cases htl
        simp [seqGo, hc, hv]
      | cons c2 rs2 =>
        have hne2 : c2 :: rs2 ≠ [] := by simp
        simp [seqGo, hc, hv, ih _ _ hne2 htl]

/-- If the remaining children are an all-`Success` block, then a child whose
result is not `Success`, the loop stops at that child: its result is returned,
the children after it stay untouched, and the cursor resets to 0 exactly when the
result was `Failure` (otherwise it stays at the stopping child). -/
theorem seqGo_stop (s : σ) :
    ∀ (mid results : List _) (pre : List (Tree σ)) (c : Tree σ) (r : TickOk σ)
      (post : List (Tree σ)),
      List.Forall₂ (TickedSuccess s) mid results →
      tick c s = some r →
      r.value ≠ some Status.Success →
      seqGo s pre (mid ++ c :: post)
        = some ⟨r.value, pre ++ results.map (fun r => r.tree) ++ r.tree :: post,
            (if r.value = some Status.Failure then 0 else pre.length + mid.length),
            (results.map (fun r => r.log)).flatten ++ r.log⟩ := by
  intro mid
  induction mid with
  | nil =>
    intro results pre c r post hall hc hv
    cases hall
    match h : r.value, hv with
    | some Status.Failure, _ => simp [seqGo, hc, h]
    | some Status.Running, _ => simp [seqGo, hc, h]
    | none, _ => simp [seqGo, hc, h]
  | cons m mid' ih =>
    intro results pre c r post hall hc hv
    cases hall with
    | cons h1 htl =>
      rename_i rm results'
      obtain ⟨hm, hmv⟩ := h1
      have hrec := ih results' (pre ++ [rm.tree]) c r post htl hc hv
      have harith : (pre ++ [rm.tree]).length + mid'.length = pre.length + (mid'.length + 1) := by
        simp
        omega
      rw [harith] at hrec
      simp [seqGo, hm, hmv, hrec, isEmpty_append_cons]

/-- If every remaining child makes the selector advance (`Failure`, or the
undefined fall-through), the selector loop exhausts its children: `reset()` runs
and the function falls off its end, returning `undefined` (`none`). -/
theorem selGo_all_advance (s : σ) :
    ∀ (rest results : List _) (pre : List (Tree σ)),
      rest ≠ [] → List.Forall₂ (TickedSelAdvance s) rest results →
      selGo s pre rest
        = some ⟨none, pre ++ results.map (fun r => r.tree), 0,
            (results.map (fun r => r.log)).flatten⟩ := by
  intro rest
  induction rest with
  | nil => intro results pre hne _; exact absurd rfl hne
  | cons c rs ih =>
    intro results pre _ hall
    cases hall with
    | cons h1 htl =>
      rename_i r results'
      obtain ⟨hc, hv⟩ := h1
      cases rs with
      | nil =>
        cases htl
        cases hv with
        | inl h => simp [selGo, hc, h]
        | inr h => simp [selGo, hc, h]
      | cons c2 rs2 =>
        have hne2 : c2 :: rs2 ≠ [] := by simp
        cases hv with
        | inl h => simp [selGo, hc, h, ih _ _ hne2 htl]
        | inr h => simp [selGo, hc, h, ih _ _ hne2 htl]

/-- If the remaining children are an all-advance block, then a child returning
`Success` or `Running`, the selector loop stops at that child: `Success` resets
the cursor to 0 and `Running` leaves it at the stopping child, and the children
after it stay untouched. -/
theorem selGo_stop (s : σ) :
    ∀ (mid results : List _) (pre : List (Tree σ)) (c : Tree σ) (r : TickOk σ)
      (post : List (Tree σ)),
      List.Forall₂ (TickedSelAdvance s) mid results →
      tick c s = some r →
      (r.value = some Status.Success ∨ r.value = some Status.Running) →
      selGo s pre (mid ++ c :: post)
        = some ⟨r.value, pre ++ results.map (fun r => r.tree) ++ r.tree :: post,
            (if r.value = some Status.Running then pre.length + mid.length else 0),
            (results.map (fun r => r.log)).flatten ++ r.log⟩ := by
  intro mid
  induction mid with
  | nil =>
    intro results pre c r post hall hc hv
    cases hall
    cases hv with
    | inl h => simp [selGo, hc, h]
    | inr h => simp [selGo, hc, h]
  | cons m mid' ih =>
    intro results pre c r post hall hc hv
    cases hall with
    | cons h1 htl =>
      rename_i rm results'
      obtain ⟨hm, hmv⟩ := h1
      have hrec := ih results' (pre ++ [rm.tree]) c r post htl hc hv
      have harith : (pre ++ [rm.tree]).length + mid'.length = pre.length + (mid'.length + 1) := by
        simp
        omega
      rw [harith] at hrec
      cases hmv with
      | inl h => simp [selGo, hm, h, hrec, isEmpty_append_cons]
      | inr h => simp [selGo, hm, h, hrec, isEmpty_append_cons]

/-! ### Concrete nodes used as counterexamples and witnesses -/

/-- A leaf action that always fails and touches nothing. -/
def alwaysFail : Tree Unit := .action "always_fail" (fun _ => (Status.Failure, []))

/-- A leaf action that always succeeds, performing one warrior call. -/
def alwaysOk : Tree Unit := .action "always_ok" (fun _ => (Status.Success, ["walk"]))

/-- A leaf action that always reports `Running`. -/
def alwaysRun : Tree Unit := .action "always_run" (fun _ => (Status.Running, []))

/-- A one-child selector whose only child always fails. -/
def selOneFail : Tree Unit := .selector "sel" false [alwaysFail] none

/-! ### The claims -/

/-- **C1, counterexample.**  The claim says a Selector whose children all fail
returns `Failure`.  On the code, `Selector.tick` has no `return` after the loop:
with the single child of `selOneFail` failing, the tick returns `undefined`
(`none`), not `Status.Failure`. -/
theorem C1_counterexample :
    (∃ r, tick alwaysFail () = some r ∧ r.value = some Status.Failure)
    ∧ (∃ out, tick selOneFail () = some out
        ∧ out.value = none ∧ out.value ≠ some Status.Failure) := by
  constructor
  · exact ⟨⟨some Status.Failure, alwaysFail, []⟩, by simp [tick, alwaysFail], rfl⟩
  · refine ⟨⟨none, .selector "sel" false [alwaysFail] (some 0), []⟩, ?_, rfl, by simp⟩
    simp [tick, selGo, selOneFail, alwaysFail, startIndex,
      Enumerator.isStarted, Enumerator.currentMethod]

/-- **C1, amended.**  For every Selector all of whose children ticked during the
traversal return `Failure`: the tick returns `undefined` (no `Status` at all, in
particular not `Failure`), with the cursor reset to 0 and every traversed child
updated. -/
theorem C1_amended_selector_exhaustion_returns_undefined
    (n : String) (ks : Bool) (enum : Option Nat) (pre rest : List (Tree σ))
    (results : List (TickOk σ)) (s : σ)
    (hstart : startIndex ks enum = pre.length)
    (hne : rest ≠ [])
    (hall : List.Forall₂ (fun c r => tick c s = some r ∧ r.value = some Status.Failure)
      rest results) :
    tick (.selector n ks (pre ++ rest) enum) s
      = some ⟨none, .selector n ks (pre ++ results.map (fun r => r.tree)) (some 0),
          (results.map (fun r => r.log)).flatten⟩ := by
  have hall' : List.Forall₂ (TickedSelAdvance s) rest results :=
    hall.imp (fun a b hab => ⟨hab.1, Or.inl hab.2⟩)
  rw [tick_selector, hstart, List.take_left, List.drop_left,
    selGo_all_advance s rest results pre hne hall']
  rfl

/-- **C1, amended, witness**: the amended statement at the concrete one-child
selector `selOneFail`. -/
theorem C1_amended_witness :
    tick selOneFail ()
      = some ⟨none, .selector "sel" false [alwaysFail] (some 0), []⟩ := by
  have h := C1_amended_selector_exhaustion_returns_undefined (σ := Unit)
    "sel" false none [] [alwaysFail] [⟨some Status.Failure, alwaysFail, []⟩] ()
    rfl (by simp)
    (List.Forall₂.cons ⟨by simp [tick, alwaysFail], rfl⟩ List.Forall₂.nil)
  simpa [selOneFail] using h

/-- **C3.**  For every Sequence with at least one child, started at child 0: if
every child ticked during the traversal returns `Success`, the Sequence's tick
returns `Success` (exactly once — `tick` returns a single value, produced after
the last child's tick, whose log closes the tick's log), and the cursor index is
0 afterward. -/
theorem C3_sequence_all_success
    (n : String) (ks : Bool) (enum : Option Nat) (ch : List (Tree σ))
    (results : List (TickOk σ)) (s : σ)
    (hstart : startIndex ks enum = 0)
    (hne : ch ≠ [])
    (hall : List.Forall₂ (TickedSuccess s) ch results) :
    tick (.sequence n ks ch enum) s
      = some ⟨some Status.Success,
          .sequence n ks (results.map (fun r => r.tree)) (some 0),
          (results.map (fun r => r.log)).flatten⟩ := by
  rw [tick_sequence, hstart]
  rw [List.take_zero, List.drop_zero, seqGo_all_success s ch results [] hne hall]
  rfl

/-- **C3, witness**: the two-child all-success sequence. -/
theorem C3_witness :
    tick (Tree.sequence "seq" false [alwaysOk, alwaysOk] none) ()
      = some ⟨some Status.Success, .sequence "seq" false [alwaysOk, alwaysOk] (some 0),
          [⟨WOrigin.leaf, "walk"⟩, ⟨WOrigin.leaf, "walk"⟩]⟩ := by
  have h := C3_sequence_all_success (σ := Unit) "seq" false none [alwaysOk, alwaysOk]
    [⟨some Status.Success, alwaysOk, [⟨WOrigin.leaf, "walk"⟩]⟩,
     ⟨some Status.Success, alwaysOk, [⟨WOrigin.leaf, "walk"⟩]⟩] ()
    rfl (by simp)
    (List.Forall₂.cons ⟨by simp [tick, alwaysOk], rfl⟩
      (List.Forall₂.cons ⟨by simp [tick, alwaysOk], rfl⟩ List.Forall₂.nil))
  simpa using h

/-- **C4.**  For every Sequence: the first child of the traversal whose result is
`Failure` or `Running` has its result returned immediately, and no child after it
is ticked in that traversal — the children after it appear untouched in the
resulting tree and contribute nothing to the log.  `Failure` resets the cursor to
0; `Running` leaves it on the stopping child. -/
theorem C4_sequence_short_circuit
    (n : String) (ks : Bool) (enum : Option Nat)
    (pre mid post : List (Tree σ)) (c : Tree σ)
    (results : List (TickOk σ)) (r : TickOk σ) (s : σ)
    (hstart : startIndex ks enum = pre.length)
    (hmid : List.Forall₂ (TickedSuccess s) mid results)
    (hc : tick c s = some r)
    (hv : r.value = some Status.Failure ∨ r.value = some Status.Running) :
    tick (.sequence n ks (pre ++ (mid ++ c :: post)) enum) s
      = some ⟨r.value,
          .sequence n ks (pre ++ results.map (fun r => r.tree) ++ r.tree :: post)
            (some (if r.value = some Status.Failure then 0 else pre.length + mid.length)),
          (results.map (fun r => r.log)).flatten ++ r.log⟩ := by
  have hvne : r.value ≠ some Status.Success := by
    rcases hv with h | h <;> simp [h]
  rw [tick_sequence, hstart, List.take_left, List.drop_left,
    seqGo_stop s mid results pre c r post hmid hc hvne]
  rfl

/-- **C4, witness**: a failing first child short-circuits a two-child sequence;
the second child is untouched and the cursor resets to 0. -/
theorem C4_witness :
    tick (Tree.sequence "seq" false ([] ++ ([] ++ alwaysFail :: [alwaysOk])) none) ()
      = some ⟨some Status.Failure,
          .sequence "seq" false [alwaysFail, alwaysOk] (some 0), []⟩ := by
  have h := C4_sequence_short_circuit (σ := Unit) "seq" false none [] [] [alwaysOk]
    alwaysFail [] ⟨some Status.Failure, alwaysFail, []⟩ ()
    rfl List.Forall₂.nil (by simp [tick, alwaysFail]) (Or.inl rfl)
  simpa using h

/-- **C5.**  For every `delay` decorator with no pending stored result, reached on
two consecutive ticks with its child returning `Success` on the first: the child
is ticked on both reaches (its tick and its log occur both times), the first
reach stores that `Success` and reports `Running`, and the second reach reports
the stored `Success` while the child's fresh second result `v2` is discarded
(the reported value does not depend on it).  Instantiating `v2 := some Success`
gives exactly the claim's scenario of a child succeeding on both ticks. -/
theorem C5_delay_defers_result
    (child c1 c2 : Tree σ) (lg1 lg2 : List LogEntry) (v2 : Option Status)
    (dn sk : Bool) (s1 s2 : σ)
    (h1 : tick child s1 = some ⟨some Status.Success, c1, lg1⟩)
    (h2 : tick c1 s2 = some ⟨v2, c2, lg2⟩) :
    (tick (.delayD (some child) ⟨none, dn, sk⟩) s1
      = some ⟨some Status.Running,
          .delayD (some c1) ⟨some Status.Success, dn, true⟩, lg1⟩)
    ∧ (tick (.delayD (some c1) ⟨some Status.Success, dn, true⟩) s2
      = some ⟨some Status.Success, .delayD (some c2) ⟨none, dn, false⟩,
          lg2 ++ [⟨WOrigin.engine, "think"⟩]⟩) := by
  constructor
  · simp [tick, h1, delayAfter]
  · simp [tick, h2, delayAfter]

/-- **C5, witness**: the concrete succeed-succeed scenario. -/
theorem C5_witness :
    (tick (Tree.delayD (some alwaysOk) ⟨none, false, false⟩) ()
      = some ⟨some Status.Running,
          .delayD (some alwaysOk) ⟨some Status.Success, false, true⟩,
          [⟨WOrigin.leaf, "walk"⟩]⟩)
    ∧ (tick (Tree.delayD (some alwaysOk) ⟨some Status.Success, false, true⟩) ()
      = some ⟨some Status.Success, .delayD (some alwaysOk) ⟨none, false, false⟩,
          [⟨WOrigin.leaf, "walk"⟩, ⟨WOrigin.engine, "think"⟩]⟩) :=
  C5_delay_defers_result alwaysOk alwaysOk alwaysOk [⟨WOrigin.leaf, "walk"⟩]
    [⟨WOrigin.leaf, "walk"⟩] (some Status.Success) false false () ()
    (by simp [tick, alwaysOk]) (by simp [tick, alwaysOk])

/-- **C6.**  For every `until` decorator whose `done` flag is clear, with its
predicate evaluating `false, false, true` on three consecutive reaches and its
child returning `Success` on each reach: the decorator reports
`Running, Running, Success` on those three reaches. -/
theorem C6_until_running_running_success
    (pred : σ → Bool) (child c1 c2 c3 : Tree σ) (lg1 lg2 lg3 : List LogEntry)
    (st : Option Status) (sk : Bool) (s1 s2 s3 : σ)
    (hp1 : pred s1 = false) (hp2 : pred s2 = false) (hp3 : pred s3 = true)
    (h1 : tick child s1 = some ⟨some Status.Success, c1, lg1⟩)
    (h2 : tick c1 s2 = some ⟨some Status.Success, c2, lg2⟩)
    (h3 : tick c2 s3 = some ⟨some Status.Success, c3, lg3⟩) :
    (tick (.untilD pred (some child) ⟨st, false, sk⟩) s1
      = some ⟨some Status.Running, .untilD pred (some c1) ⟨st, false, sk⟩, lg1⟩)
    ∧ (tick (.untilD pred (some c1) ⟨st, false, sk⟩) s2
      = some ⟨some Status.Running, .untilD pred (some c2) ⟨st, false, sk⟩, lg2⟩)
    ∧ (tick (.untilD pred (some c2) ⟨st, false, sk⟩) s3
      = some ⟨some Status.Success, .untilD pred (some c3) ⟨st, false, false⟩, lg3⟩) := by
  refine ⟨?_, ?_, ?_⟩
  · simp [tick, h1, untilBefore, untilAfter, hp1]
  · simp [tick, h2, untilBefore, untilAfter, hp2]
  · simp [tick, h3, untilBefore, untilAfter, hp3]

/-- **C6, witness**: predicate reads a counter in the turn state that reaches 2
on the third reach. -/
theorem C6_witness :
    (tick (Tree.untilD (fun k => k = 2) (some (.action "rest" (fun _ => (Status.Success, ["rest"]))))
        ⟨none, false, false⟩) 0
      = some ⟨some Status.Running,
          .untilD (fun k => k = 2) (some (.action "rest" (fun _ => (Status.Success, ["rest"]))))
            ⟨none, false, false⟩, [⟨WOrigin.leaf, "rest"⟩]⟩)
    ∧ (tick (Tree.untilD (fun k => k = 2) (some (.action "rest" (fun _ => (Status.Success, ["rest"]))))
        ⟨none, false, false⟩) 1
      = some ⟨some Status.Running,
          .untilD (fun k => k = 2) (some (.action "rest" (fun _ => (Status.Success, ["rest"]))))
            ⟨none, false, false⟩, [⟨WOrigin.leaf, "rest"⟩]⟩)
    ∧ (tick (Tree.untilD (fun k => k = 2) (some (.action "rest" (fun _ => (Status.Success, ["rest"]))))
        ⟨none, false, false⟩) 2
      = some ⟨some Status.Success,
          .untilD (fun k => k = 2) (some (.action "rest" (fun _ => (Status.Success, ["rest"]))))
            ⟨none, false, false⟩, [⟨WOrigin.leaf, "rest"⟩]⟩) :=
  C6_until_running_running_success (σ := Nat) (fun k => k = 2)
    (.action "rest" (fun _ => (Status.Success, ["rest"])))
    (.action "rest" (fun _ => (Status.Success, ["rest"])))
    (.action "rest" (fun _ => (Status.Success, ["rest"])))
    (.action "rest" (fun _ => (Status.Success, ["rest"])))
    [⟨WOrigin.leaf, "rest"⟩] [⟨WOrigin.leaf, "rest"⟩] [⟨WOrigin.leaf, "rest"⟩]
    none false 0 1 2
    (by simp) (by simp) (by simp)
    (by simp [tick]) (by simp [tick]) (by simp [tick])

/-- **C9.**  Ticking a malformed tree faults: a Sequence or Selector with zero
children reaches `this.enumerator.current().tick(state)` with `current()`
returning `undefined` (the `isStarted` guard does not catch this, see C10), and a
decorator that was never `bind`-ed reaches `this.node.tick(newState)` with
`this.node` equal to `undefined`; both throw a `TypeError` (`none`) instead of
returning any Status value. -/
theorem C9_malformed_trees_fault
    (n : String) (ks : Bool) (enum : Option Nat) (pred : σ → Bool)
    (self : DecSelf) (s : σ) :
    tick (.sequence n ks ([] : List (Tree σ)) enum) s = none
    ∧ tick (.selector n ks ([] : List (Tree σ)) enum) s = none
    ∧ tick (.notD (none : Option (Tree σ)) self) s = none
    ∧ tick (.delayD (none : Option (Tree σ)) self) s = none
    ∧ tick (.untilD pred none self) s = none := by
  refine ⟨?_, ?_, ?_, ?_, ?_⟩ <;>
    simp [tick, seqGo, selGo, Enumerator.isStarted, Enumerator.currentMethod]

/-- **C10.**  `Enumerator.isStarted` compares the method `current` itself — never
`undefined` — against `undefined`, so it returns `true` for every enumerator,
including one over an empty list; consequently the `!isStarted()` guard in
`Sequence.tick` and `Selector.tick` is unreachable and every composite tick is
exactly the traversal-loop dispatch — no composite ever returns `Running` from
that guard. -/
theorem C10_isStarted_always_true_guard_unreachable
    (e : Enumerator σ) (n : String) (ks : Bool) (ch : List (Tree σ))
    (enum : Option Nat) (s : σ) :
    Enumerator.isStarted e = true
    ∧ (tick (.sequence n ks ch enum) s
        = (seqGo s (ch.take (startIndex ks enum)) (ch.drop (startIndex ks enum))).map
            (fun g => ⟨g.value, .sequence n ks g.children (some g.index), g.log⟩))
    ∧ (tick (.selector n ks ch enum) s
        = (selGo s (ch.take (startIndex ks enum)) (ch.drop (startIndex ks enum))).map
            (fun g => ⟨g.value, .selector n ks g.children (some g.index), g.log⟩)) :=
  ⟨rfl, tick_sequence n ks ch enum s, tick_selector n ks ch enum s⟩

/-- **C2.**  For every Sequence or Selector with `keepState = true`: if tick `T`
returns `Running` because child `k` returned `Running` (the children before `k` in
the traversal let it advance: `Success` for a Sequence, `Failure` for a Selector),
then the resulting cursor is `some k`; and on tick `T+1` the composite starts at
child `k`: with child `k` running again, the tick's whole effect is child `k`'s
tick — its log is the entire log, its updated form replaces it, every other child
is untouched verbatim, and the cursor stays at `k`. -/
theorem C2_keepState_resumes_at_running_child
    (n1 n2 : String) (enum1 enum2 : Option Nat)
    (pre1 mid1 post1 pre2 mid2 post2 : List (Tree σ))
    (ck ck1 ck2 : Tree σ) (results1 results2 : List (TickOk σ))
    (lg1 lg2 : List LogEntry) (s s' : σ)
    (hstart1 : startIndex true enum1 = pre1.length)
    (hstart2 : startIndex true enum2 = pre2.length)
    (hmid1 : List.Forall₂ (TickedSuccess s) mid1 results1)
    (hmid2 : List.Forall₂ (TickedSelAdvance s) mid2 results2)
    (hck : tick ck s = some ⟨some Status.Running, ck1, lg1⟩)
    (hck1 : tick ck1 s' = some ⟨some Status.Running, ck2, lg2⟩) :
    (tick (.sequence n1 true (pre1 ++ (mid1 ++ ck :: post1)) enum1) s
      = some ⟨some Status.Running,
          .sequence n1 true (pre1 ++ results1.map (fun r => r.tree) ++ ck1 :: post1)
            (some (pre1.length + mid1.length)),
          (results1.map (fun r => r.log)).flatten ++ lg1⟩)
    ∧ (tick (.sequence n1 true (pre1 ++ results1.map (fun r => r.tree) ++ ck1 :: post1)
          (some (pre1.length + mid1.length))) s'
      = some ⟨some Status.Running,
          .sequence n1 true (pre1 ++ results1.map (fun r => r.tree) ++ ck2 :: post1)
            (some (pre1.length + mid1.length)), lg2⟩)
    ∧ (tick (.selector n2 true (pre2 ++ (mid2 ++ ck :: post2)) enum2) s
      = some ⟨some Status.Running,
          .selector n2 true (pre2 ++ results2.map (fun r => r.tree) ++ ck1 :: post2)
            (some (pre2.length + mid2.length)),
          (results2.map (fun r => r.log)).flatten ++ lg1⟩)
    ∧ (tick (.selector n2 true (pre2 ++ results2.map (fun r => r.tree) ++ ck1 :: post2)
          (some (pre2.length + mid2.length))) s'
      = some ⟨some Status.Running,
          .selector n2 true (pre2 ++ results2.map (fun r => r.tree) ++ ck2 :: post2)
            (some (pre2.length + mid2.length)), lg2⟩) := by
  have hlen1 : (pre1 ++ results1.map (fun r => r.tree)).length
      = pre1.length + mid1.length := by
    have := hmid1.length_eq
    simp
    omega
  have hlen2 : (pre2 ++ results2.map (fun r => r.tree)).length
      = pre2.length + mid2.length := by
    have := hmid2.length_eq
    simp
    omega
  have eSeq1 : (pre1 ++ results1.map (fun r => r.tree) ++ ck1 :: post1).take
      (pre1.length + mid1.length) = pre1 ++ results1.map (fun r => r.tree) := by
    rw [← hlen1, List.take_left]
  have eSeq2 : (pre1 ++ results1.map (fun r => r.tree) ++ ck1 :: post1).drop
      (pre1.length + mid1.length) = ck1 :: post1 := by
    rw [← hlen1, List.drop_left]
  have eSel1 : (pre2 ++ results2.map (fun r => r.tree) ++ ck1 :: post2).take
      (pre2.length + mid2.length) = pre2 ++ results2.map (fun r => r.tree) := by
    rw [← hlen2, List.take_left]
  have eSel2 : (pre2 ++ results2.map (fun r => r.tree) ++ ck1 :: post2).drop
      (pre2.length + mid2.length) = ck1 :: post2 := by
    rw [← hlen2, List.drop_left]
  refine ⟨?_, ?_, ?_, ?_⟩
  · rw [tick_sequence, hstart1, List.take_left, List.drop_left,
      seqGo_stop s mid1 results1 pre1 ck ⟨some Status.Running, ck1, lg1⟩ post1
        hmid1 hck (by simp)]
    simp
  · rw [tick_sequence,
      show startIndex true (some (pre1.length + mid1.length)) = pre1.length + mid1.length
        from rfl,
      eSeq1, eSeq2]
    simp [seqGo, hck1, hmid1.length_eq]
  · rw [tick_selector, hstart2, List.take_left, List.drop_left,
      selGo_stop s mid2 results2 pre2 ck ⟨some Status.Running, ck1, lg1⟩ post2
        hmid2 hck (by simp)]
    simp
  · rw [tick_selector,
      show startIndex true (some (pre2.length + mid2.length)) = pre2.length + mid2.length
        from rfl,
      eSel1, eSel2]
    simp [selGo, hck1, hmid2.length_eq]

/-- **C2, witness**: two-child composites with `keepState = true` whose second
child runs on tick `T`; on tick `T+1` the cursor is still at that child and only
it is evaluated. -/
theorem C2_witness :
    (tick (Tree.sequence "seq" true [alwaysOk, alwaysRun] none) ()
      = some ⟨some Status.Running,
          .sequence "seq" true [alwaysOk, alwaysRun] (some 1), [⟨WOrigin.leaf, "walk"⟩]⟩)
    ∧ (tick (Tree.sequence "seq" true [alwaysOk, alwaysRun] (some 1)) ()
      = some ⟨some Status.Running,
          .sequence "seq" true [alwaysOk, alwaysRun] (some 1), []⟩)
    ∧ (tick (Tree.selector "sel2" true [alwaysFail, alwaysRun] none) ()
      = some ⟨some Status.Running,
          .selector "sel2" true [alwaysFail, alwaysRun] (some 1), []⟩)
    ∧ (tick (Tree.selector "sel2" true [alwaysFail, alwaysRun] (some 1)) ()
      = some ⟨some Status.Running,
          .selector "sel2" true [alwaysFail, alwaysRun] (some 1), []⟩) := by
  have h := C2_keepState_resumes_at_running_child (σ := Unit) "seq" "sel2"
    none none [] [alwaysOk] [] [] [alwaysFail] []
    alwaysRun alwaysRun alwaysRun
    [⟨some Status.Success, alwaysOk, [⟨WOrigin.leaf, "walk"⟩]⟩]
    [⟨some Status.Failure, alwaysFail, []⟩]
    [] [] () ()
    rfl rfl
    (List.Forall₂.cons ⟨by simp [tick, alwaysOk], rfl⟩ List.Forall₂.nil)
    (List.Forall₂.cons ⟨by simp [tick, alwaysFail], Or.inl rfl⟩ List.Forall₂.nil)
    (by simp [tick, alwaysRun]) (by simp [tick, alwaysRun])
  simpa using h

/-! ### Which world-handle operations does the engine itself perform? -/

theorem tree_sizeOf_pos (t : Tree σ) : 0 < sizeOf t := by
  cases t <;> simp_arith

theorem list_sizeOf_pos (l : List (Tree σ)) : 0 < sizeOf l := by
  cases l <;> simp_arith

/-- Every log entry of engine origin, anywhere in any tick, is the `think` call
(the one the `delay` decorator makes when releasing a stored result).  Joint
strong induction on the size of the tree / of the remaining-children list. -/
theorem engineThink_aux :
    ∀ N : Nat,
      (∀ t : Tree σ, sizeOf t ≤ N → ∀ s r, tick t s = some r →
        ∀ ee ∈ r.log, ee.origin = WOrigin.engine → ee.op = "think")
      ∧ (∀ rest : List (Tree σ), sizeOf rest ≤ N → ∀ s pre g, seqGo s pre rest = some g →
        ∀ ee ∈ g.log, ee.origin = WOrigin.engine → ee.op = "think")
      ∧ (∀ rest : List (Tree σ), sizeOf rest ≤ N → ∀ s pre g, selGo s pre rest = some g →
        ∀ ee ∈ g.log, ee.origin = WOrigin.engine → ee.op = "think") := by
  intro N
  induction N with
  | zero =>
    refine ⟨fun t ht => absurd ht ?_, fun l hl => absurd hl ?_, fun l hl => absurd hl ?_⟩
    · have := tree_sizeOf_pos t; omega
    · have := list_sizeOf_pos l; omega
    · have := list_sizeOf_pos l; omega
  | succ N ih =>
    obtain ⟨iht, ihseq, ihsel⟩ := ih
    refine ⟨?_, ?_, ?_⟩
    · -- the tick component
      intro t ht s r hr ee hee horig
      cases t with
      | action nm act =>
        simp [tick] at hr
        subst hr
        simp at hee
        obtain ⟨o, -, rfl⟩ := hee
        simp at horig
      | sequence nm ks ch enum =>
        rw [tick_sequence] at hr
        cases hgo : seqGo s (ch.take (startIndex ks enum)) (ch.drop (startIndex ks enum)) with
        | none => rw [hgo] at hr; simp at hr
        | some g =>
          rw [hgo] at hr
          simp at hr
          subst hr
          have hsz : sizeOf (ch.drop (startIndex ks enum)) ≤ N := by
            have h1 := sizeOf_drop_le (startIndex ks enum) ch
            have h2 : sizeOf (Tree.sequence nm ks ch enum) = 1 + sizeOf nm + sizeOf ks
                + sizeOf ch + sizeOf enum := by simp_arith
            omega
          exact ihseq _ hsz s _ g hgo ee (by simpa using hee) horig
      | selector nm ks ch enum =>
        rw [tick_selector] at hr
        cases hgo : selGo s (ch.take (startIndex ks enum)) (ch.drop (startIndex ks enum)) with
        | none => rw [hgo] at hr; simp at hr
        | some g =>
          rw [hgo] at hr
          simp at hr
          subst hr
          have hsz : sizeOf (ch.drop (startIndex ks enum)) ≤ N := by
            have h1 := sizeOf_drop_le (startIndex ks enum) ch
            have h2 : sizeOf (Tree.selector nm ks ch enum) = 1 + sizeOf nm + sizeOf ks
                + sizeOf ch + sizeOf enum := by simp_arith
            omega
          exact ihsel _ hsz s _ g hgo ee (by simpa using hee) horig
      | notD child self =>
        cases child with
        | none => simp [tick] at hr
        | some c =>
          simp [tick] at hr
          obtain ⟨rc, hrc, hre⟩ := hr
          subst hre
          have hsz : sizeOf c ≤ N := by
            have h2 : sizeOf (Tree.notD (some c) self) = 1 + (1 + sizeOf c) + sizeOf self := by
              simp_arith
            omega
          exact iht c hsz s rc hrc ee (by simpa using hee) horig
      | delayD child self =>
        cases child with
        | none => simp [tick] at hr
        | some c =>
          simp [tick] at hr
          obtain ⟨rc, hrc, hre⟩ := hr
          subst hre
          have hsz : sizeOf c ≤ N := by
            have h2 : sizeOf (Tree.delayD (some c) self) = 1 + (1 + sizeOf c) + sizeOf self := by
              simp_arith
            omega
          simp at hee
          rcases hee with hee | hee
          · exact iht c hsz s rc hrc ee hee horig
          · cases hst : self.storedResult with
            | some w =>
              simp [delayAfter, hst] at hee
              subst hee
              rfl
            | none => simp [delayAfter, hst] at hee
      | untilD pred child self =>
        cases child with
        | none => simp [tick] at hr
        | some c =>
          simp [tick] at hr
          obtain ⟨rc, hrc, hre⟩ := hr
          subst hre
          have hsz : sizeOf c ≤ N := by
            have h2 : sizeOf (Tree.untilD pred (some c) self)
                = 1 + sizeOf pred + (1 + sizeOf c) + sizeOf self := by simp_arith
            omega
          exact iht c hsz s rc hrc ee (by simpa using hee) horig
    · -- the Sequence-loop component
      intro rest hsz s pre g hg ee hee horig
      cases rest with
      | nil => simp [seqGo] at hg
      | cons c rs =>
        have hszc : sizeOf c ≤ N := by
          have : sizeOf (c :: rs) = 1 + sizeOf c + sizeOf rs := by simp_arith
          omega
        have hszrs : sizeOf rs ≤ N := by
          have : sizeOf (c :: rs) = 1 + sizeOf c + sizeOf rs := by simp_arith
          omega
        cases htick : tick c s with
        | none => simp [seqGo, htick] at hg
        | some rc =>
          cases hval : rc.value with
          | none =>
            simp [seqGo, htick, hval] at hg
            subst hg
            exact iht c hszc s rc htick ee (by simpa using hee) horig
          | some st =>
            cases st with
            | Success =>
              cases rs with
              | nil =>
                simp [seqGo, htick, hval] at hg
                subst hg
                exact iht c hszc s rc htick ee (by simpa using hee) horig
              | cons c2 rs2 =>
                rw [seqGo_cons, htick] at hg
                simp [hval] at hg
                obtain ⟨g2, hg2, hge⟩ := hg
                subst hge
                simp at hee
                rcases hee with hee | hee
                · exact iht c hszc s rc htick ee hee horig
                · exact ihseq (c2 :: rs2) hszrs s (pre ++ [rc.tree]) g2 hg2 ee hee horig
            | Failure =>
              simp [seqGo, htick, hval] at hg
              subst hg
              exact iht c hszc s rc htick ee (by simpa using hee) horig
            | Running =>
              simp [seqGo, htick, hval] at hg
              subst hg
              exact iht c hszc s rc htick ee (by simpa using hee) horig
    · -- the Selector-loop component
      intro rest hsz s pre g hg ee hee horig
      cases rest with
      | nil => simp [selGo] at hg
      | cons c rs =>
        have hszc : sizeOf c ≤ N := by
          have : sizeOf (c :: rs) = 1 + sizeOf c + sizeOf rs := by simp_arith
          omega
        have hszrs : sizeOf rs ≤ N := by
          have : sizeOf (c :: rs) = 1 + sizeOf c + sizeOf rs := by simp_arith
          omega
        cases htick : tick c s with
        | none => simp [selGo, htick] at hg
        | some rc =>
          cases hval : rc.value with
          | none =>
            cases rs with
            | nil =>
              simp [selGo, htick, hval] at hg
              subst hg
              exact iht c hszc s rc htick ee (by simpa using hee) horig
            | cons c2 rs2 =>
              rw [selGo_cons, htick] at hg
              simp [hval] at hg
              obtain ⟨g2, hg2, hge⟩ := hg
              subst hge
              simp at hee
              rcases hee with hee | hee
              · exact iht c hszc s rc htick ee hee horig
              · exact ihsel (c2 :: rs2) hszrs s (pre ++ [rc.tree]) g2 hg2 ee hee horig
          | some st =>
            cases st with
            | Running =>
              simp [selGo, htick, hval] at hg
              subst hg
              exact iht c hszc s rc htick ee (by simpa using hee) horig
            | Success =>
              simp [selGo, htick, hval] at hg
              subst hg
              exact iht c hszc s rc htick ee (by simpa using hee) horig
            | Failure =>
              cases rs with
              | nil =>
                simp [selGo, htick, hval] at hg
                subst hg
                exact iht c hszc s rc htick ee (by simpa using hee) horig
              | cons c2 rs2 =>
                rw [selGo_cons, htick] at hg
                simp [hval] at hg
                obtain ⟨g2, hg2, hge⟩ := hg
                subst hge
                simp at hee
                rcases hee with hee | hee
                · exact iht c hszc s rc htick ee hee horig
                · exact ihsel (c2 :: rs2) hszrs s (pre ++ [rc.tree]) g2 hg2 ee hee horig


/-- The `delay` decorator with a pending stored `Success`, wrapping a harmless
leaf: releasing the stored result makes the decorator itself call
`state.warrior.think` (`Player.js` line 198). -/
def delayPending : Tree Unit := .delayD (some alwaysOk) ⟨some Status.Success, false, false⟩

/-- **C7, counterexample.**  The claim says world-handle operations are invoked
only from leaf action functions.  But ticking `delayPending` produces a log entry
of engine origin: the `delay` decorator's after-hook itself invokes
`warrior.think` when it releases its stored result. -/
theorem C7_counterexample :
    ∃ out, tick delayPending () = some out
      ∧ (⟨WOrigin.engine, "think"⟩ : LogEntry) ∈ out.log := by
  refine ⟨⟨some Status.Success, .delayD (some alwaysOk) ⟨none, false, false⟩,
    [⟨WOrigin.leaf, "walk"⟩, ⟨WOrigin.engine, "think"⟩]⟩, ?_, by simp⟩
  simp [tick, delayPending, alwaysOk, delayAfter]

/-- **C7, amended.**  During any tick, every world-handle operation that does not
originate from a leaf action function is the single `warrior.think` call the
`delay` decorator makes when releasing a stored result; composites and the other
decorators invoke none. -/
theorem C7_amended_engine_world_ops_are_only_delay_think
    (t : Tree σ) (s : σ) (r : TickOk σ) (hr : tick t s = some r) :
    ∀ ee ∈ r.log, ee.origin = WOrigin.engine → ee.op = "think" := by
  intro ee hee horig
  exact (engineThink_aux (sizeOf t)).1 t (Nat.le_refl _) s r hr ee hee horig

/-- **C7, amended, witness**: the amended theorem applied to `delayPending`. -/
theorem C7_amended_witness :
    (⟨WOrigin.engine, "think"⟩ : LogEntry).op = "think" :=
  C7_amended_engine_world_ops_are_only_delay_think delayPending ()
    ⟨some Status.Success, .delayD (some alwaysOk) ⟨none, false, false⟩,
      [⟨WOrigin.leaf, "walk"⟩, ⟨WOrigin.engine, "think"⟩]⟩
    (by simp [tick, delayPending, alwaysOk, delayAfter])
    ⟨WOrigin.engine, "think"⟩ (by simp) rfl


/-! ### `should_skip` is dead state: erasing it never changes observable behavior -/

mutual

/-- Set every decorator's `should_skip` flag to `false` throughout the tree,
leaving every other piece of node state unchanged.  Two trees differ only in
their `should_skip` flags exactly when their `scrub`s are equal. -/
def scrub {σ : Type} : Tree σ → Tree σ
  | .action nm act => .action nm act
  | .sequence nm ks ch e => .sequence nm ks (scrubList ch) e
  | .selector nm ks ch e => .selector nm ks (scrubList ch) e
  | .notD none self => .notD none ⟨self.storedResult, self.done, false⟩
  | .notD (some c) self => .notD (some (scrub c)) ⟨self.storedResult, self.done, false⟩
  | .delayD none self => .delayD none ⟨self.storedResult, self.done, false⟩
  | .delayD (some c) self => .delayD (some (scrub c)) ⟨self.storedResult, self.done, false⟩
  | .untilD pred none self => .untilD pred none ⟨self.storedResult, self.done, false⟩
  | .untilD pred (some c) self =>
      .untilD pred (some (scrub c)) ⟨self.storedResult, self.done, false⟩

/-- `scrub` on every element of a list of children. -/
def scrubList {σ : Type} : List (Tree σ) → List (Tree σ)
  | [] => []
  | c :: cs => scrub c :: scrubList cs

end

theorem scrubList_eq_map (l : List (Tree σ)) : scrubList l = l.map scrub := by
  induction l with
  | nil => simp [scrubList]
  | cons c cs ih => simp [scrubList, ih]

theorem scrubList_append (l1 l2 : List (Tree σ)) :
    scrubList (l1 ++ l2) = scrubList l1 ++ scrubList l2 := by
  simp [scrubList_eq_map]

theorem scrubList_length (l : List (Tree σ)) : (scrubList l).length = l.length := by
  simp [scrubList_eq_map]

theorem scrubList_take (i : Nat) (l : List (Tree σ)) :
    (scrubList l).take i = scrubList (l.take i) := by
  simp [scrubList_eq_map, List.map_take]

theorem scrubList_drop (i : Nat) (l : List (Tree σ)) :
    (scrubList l).drop i = scrubList (l.drop i) := by
  simp [scrubList_eq_map, List.map_drop]

theorem scrubList_isEmpty (l : List (Tree σ)) : (scrubList l).isEmpty = l.isEmpty := by
  cases l <;> simp [scrubList]

theorem scrub_idem_aux :
    ∀ N : Nat, (∀ t : Tree σ, sizeOf t ≤ N → scrub (scrub t) = scrub t)
      ∧ (∀ l : List (Tree σ), sizeOf l ≤ N → scrubList (scrubList l) = scrubList l) := by
  intro N
  induction N with
  | zero =>
    refine ⟨fun t ht => absurd ht ?_, fun l hl => absurd hl ?_⟩
    · have := tree_sizeOf_pos t; omega
    · have := list_sizeOf_pos l; omega
  | succ N ih =>
    obtain ⟨iht, ihl⟩ := ih
    constructor
    · intro t ht
      cases t with
      | action nm act => simp [scrub]
      | sequence nm ks ch e =>
        have hsz : sizeOf ch ≤ N := by
          have h2 : sizeOf (Tree.sequence nm ks ch e)
              = 1 + sizeOf nm + sizeOf ks + sizeOf ch + sizeOf e := by simp_arith
          omega
        simp [scrub, ihl ch hsz]
      | selector nm ks ch e =>
        have hsz : sizeOf ch ≤ N := by
          have h2 : sizeOf (Tree.selector nm ks ch e)
              = 1 + sizeOf nm + sizeOf ks + sizeOf ch + sizeOf e := by simp_arith
          omega
        simp [scrub, ihl ch hsz]
      | notD child self =>
        cases child with
        | none => simp [scrub]
        | some c =>
          have hsz : sizeOf c ≤ N := by
            have h2 : sizeOf (Tree.notD (some c) self)
                = 1 + (1 + sizeOf c) + sizeOf self := by simp_arith
            omega
          simp [scrub, iht c hsz]
      | delayD child self =>
        cases child with
        | none => simp [scrub]
        | some c =>
          have hsz : sizeOf c ≤ N := by
            have h2 : sizeOf (Tree.delayD (some c) self)
                = 1 + (1 + sizeOf c) + sizeOf self := by simp_arith
            omega
          simp [scrub, iht c hsz]
      | untilD pred child self =>
        cases child with
        | none => simp [scrub]
        | some c =>
          have hsz : sizeOf c ≤ N := by
            have h2 : sizeOf (Tree.untilD pred (some c) self)
                = 1 + sizeOf pred + (1 + sizeOf c) + sizeOf self := by simp_arith
            omega
          simp [scrub, iht c hsz]
    · intro l hl
      cases l with
      | nil => simp [scrubList]
      | cons c cs =>
        have hszc : sizeOf c ≤ N := by
          have h2 : sizeOf (c :: cs) = 1 + sizeOf c + sizeOf cs := by simp_arith
          omega
        have hszcs : sizeOf cs ≤ N := by
          have h2 : sizeOf (c :: cs) = 1 + sizeOf c + sizeOf cs := by simp_arith
          omega
        simp [scrubList, iht c hszc, ihl cs hszcs]

theorem scrub_scrub (t : Tree σ) : scrub (scrub t) = scrub t :=
  (scrub_idem_aux (sizeOf t)).1 t (Nat.le_refl _)

theorem scrubList_scrubList (l : List (Tree σ)) : scrubList (scrubList l) = scrubList l :=
  (scrub_idem_aux (sizeOf l)).2 l (Nat.le_refl _)

/-- A tick outcome observed up to `should_skip`: value and log verbatim, the
updated node with all `should_skip` flags erased. -/
def scrubOut {σ : Type} (r : TickOk σ) : TickOk σ := ⟨r.value, scrub r.tree, r.log⟩

/-- A loop outcome observed up to `should_skip`. -/
def scrubGoOut {σ : Type} (g : GoOut σ) : GoOut σ :=
  ⟨g.value, scrubList g.children, g.index, g.log⟩

theorem map_wrap_congr (A B : Option (GoOut σ)) (f : GoOut σ → TickOk σ)
    (hcomm : ∀ g, scrubOut (f g) = f (scrubGoOut g))
    (h : A.map scrubGoOut = B.map scrubGoOut) :
    (A.map f).map scrubOut = (B.map f).map scrubOut := by
  cases A with
  | none =>
    cases B with
    | none => rfl
    | some gB => simp at h
  | some gA =>
    cases B with
    | none => simp at h
    | some gB =>
      simp at h ⊢
      rw [hcomm, hcomm, h]



/-- Ticking a scrubbed tree is, up to `should_skip`, the same as ticking the
tree: same fault behavior, same returned value, same log, same resulting tree up
to `should_skip`.  Joint strong induction as in `engineThink_aux`. -/
theorem tick_scrub_aux :
    ∀ N : Nat,
      (∀ t : Tree σ, sizeOf t ≤ N → ∀ s,
        (tick (scrub t) s).map scrubOut = (tick t s).map scrubOut)
      ∧ (∀ rest : List (Tree σ), sizeOf rest ≤ N → ∀ s (pre1 pre2 : List (Tree σ)),
        scrubList pre1 = scrubList pre2 →
        (seqGo s pre1 (scrubList rest)).map scrubGoOut
          = (seqGo s pre2 rest).map scrubGoOut)
      ∧ (∀ rest : List (Tree σ), sizeOf rest ≤ N → ∀ s (pre1 pre2 : List (Tree σ)),
        scrubList pre1 = scrubList pre2 →
        (selGo s pre1 (scrubList rest)).map scrubGoOut
          = (selGo s pre2 rest).map scrubGoOut) := by
  intro N
  induction N with
  | zero =>
    refine ⟨fun t ht => absurd ht ?_, fun l hl => absurd hl ?_, fun l hl => absurd hl ?_⟩
    · have := tree_sizeOf_pos t; omega
    · have := list_sizeOf_pos l; omega
    · have := list_sizeOf_pos l; omega
  | succ N ih =>
    obtain ⟨iht, ihseq, ihsel⟩ := ih
    refine ⟨?_, ?_, ?_⟩
    · -- the tick component
      intro t ht s
      cases t with
      | action nm act => simp [scrub]
      | sequence nm ks ch e =>
        have hszd : sizeOf (ch.drop (startIndex ks e)) ≤ N := by
          have h1 := sizeOf_drop_le (startIndex ks e) ch
          have h2 : sizeOf (Tree.sequence nm ks ch e)
              = 1 + sizeOf nm + sizeOf ks + sizeOf ch + sizeOf e := by simp_arith
          omega
        have G := ihseq (ch.drop (startIndex ks e)) hszd s
          (scrubList (ch.take (startIndex ks e))) (ch.take (startIndex ks e))
          (scrubList_scrubList _)
        rw [show scrub (Tree.sequence nm ks ch e) = .sequence nm ks (scrubList ch) e
          from by simp [scrub]]
        rw [tick_sequence, tick_sequence, scrubList_take, scrubList_drop]
        exact map_wrap_congr _ _ _ (fun g => by simp [scrubOut, scrub, scrubGoOut]) G
      | selector nm ks ch e =>
        have hszd : sizeOf (ch.drop (startIndex ks e)) ≤ N := by
          have h1 := sizeOf_drop_le (startIndex ks e) ch
          have h2 : sizeOf (Tree.selector nm ks ch e)
              = 1 + sizeOf nm + sizeOf ks + sizeOf ch + sizeOf e := by simp_arith
          omega
        have G := ihsel (ch.drop (startIndex ks e)) hszd s
          (scrubList (ch.take (startIndex ks e))) (ch.take (startIndex ks e))
          (scrubList_scrubList _)
        rw [show scrub (Tree.selector nm ks ch e) = .selector nm ks (scrubList ch) e
          from by simp [scrub]]
        rw [tick_selector, tick_selector, scrubList_take, scrubList_drop]
        exact map_wrap_congr _ _ _ (fun g => by simp [scrubOut, scrub, scrubGoOut]) G
      | notD child self =>
        cases child with
        | none => simp [scrub, tick]
        | some c =>
          have hszc : sizeOf c ≤ N := by
            have h2 : sizeOf (Tree.notD (some c) self)
                = 1 + (1 + sizeOf c) + sizeOf self := by simp_arith
            omega
          have hIH := iht c hszc s
          rw [show scrub (Tree.notD (some c) self)
            = .notD (some (scrub c)) ⟨self.storedResult, self.done, false⟩
            from by simp [scrub]]
          cases hA : tick (scrub c) s with
          | none =>
            rw [hA] at hIH
            cases hB : tick c s with
            | none => simp [tick, hA, hB]
            | some rc => rw [hB] at hIH; simp at hIH
          | some rc1 =>
            rw [hA] at hIH
            cases hB : tick c s with
            | none => rw [hB] at hIH; simp at hIH
            | some rc =>
              rw [hB] at hIH
              simp [scrubOut] at hIH
              obtain ⟨hv, htr, hlg⟩ := hIH
              simp [tick, hA, hB, scrubOut, scrub, hv, htr, hlg]
      | delayD child self =>
        cases child with
        | none => simp [scrub, tick]
        | some c =>
          have hszc : sizeOf c ≤ N := by
            have h2 : sizeOf (Tree.delayD (some c) self)
                = 1 + (1 + sizeOf c) + sizeOf self := by simp_arith
            omega
          have hIH := iht c hszc s
          rw [show scrub (Tree.delayD (some c) self)
            = .delayD (some (scrub c)) ⟨self.storedResult, self.done, false⟩
            from by simp [scrub]]
          cases hA : tick (scrub c) s with
          | none =>
            rw [hA] at hIH
            cases hB : tick c s with
            | none => simp [tick, hA, hB]
            | some rc => rw [hB] at hIH; simp at hIH
          | some rc1 =>
            rw [hA] at hIH
            cases hB : tick c s with
            | none => rw [hB] at hIH; simp at hIH
            | some rc =>
              rw [hB] at hIH
              simp [scrubOut] at hIH
              obtain ⟨hv, htr, hlg⟩ := hIH
              cases hst : self.storedResult with
              | some w =>
                simp [tick, hA, hB, delayAfter, hst, scrubOut, scrub, hv, htr, hlg]
              | none =>
                simp [tick, hA, hB, delayAfter, hst, scrubOut, scrub, hv, htr, hlg]
      | untilD pred child self =>
        cases child with
        | none => simp [scrub, tick]
        | some c =>
          have hszc : sizeOf c ≤ N := by
            have h2 : sizeOf (Tree.untilD pred (some c) self)
                = 1 + sizeOf pred + (1 + sizeOf c) + sizeOf self := by simp_arith
            omega
          have hIH := iht c hszc s
          rw [show scrub (Tree.untilD pred (some c) self)
            = .untilD pred (some (scrub c)) ⟨self.storedResult, self.done, false⟩
            from by simp [scrub]]
          cases hA : tick (scrub c) s with
          | none =>
            rw [hA] at hIH
            cases hB : tick c s with
            | none => simp [tick, hA, hB]
            | some rc => rw [hB] at hIH; simp at hIH
          | some rc1 =>
            rw [hA] at hIH
            cases hB : tick c s with
            | none => rw [hB] at hIH; simp at hIH
            | some rc =>
              rw [hB] at hIH
              simp [scrubOut] at hIH
              obtain ⟨hv, htr, hlg⟩ := hIH
              cases hps : pred s <;>
                by_cases hfail : rc.value = some Status.Failure <;>
                  cases hdn : self.done <;>
                    simp [tick, hA, hB, untilBefore, untilAfter, hps, hfail, hdn,
                      hv, htr, hlg, scrubOut, scrub]
    · -- the Sequence-loop component
      intro rest hsz s pre1 pre2 hpre
      have hlen : pre1.length = pre2.length := by
        have h1 := scrubList_length pre1
        have h2 := scrubList_length (σ := σ) pre2
        rw [hpre] at h1
        omega
      cases rest with
      | nil => simp [scrubList, seqGo]
      | cons c rs =>
        have hszc : sizeOf c ≤ N := by
          have h2 : sizeOf (c :: rs) = 1 + sizeOf c + sizeOf rs := by simp_arith
          omega
        have hszrs : sizeOf rs ≤ N := by
          have h2 : sizeOf (c :: rs) = 1 + sizeOf c + sizeOf rs := by simp_arith
          omega
        have hIH := iht c hszc s
        rw [show scrubList (c :: rs) = scrub c :: scrubList rs from by simp [scrubList]]
        rw [seqGo_cons, seqGo_cons]
        cases hA : tick (scrub c) s with
        | none =>
          rw [hA] at hIH
          cases hB : tick c s with
          | none => simp
          | some rc => rw [hB] at hIH; simp at hIH
        | some rc1 =>
          rw [hA] at hIH
          cases hB : tick c s with
          | none => rw [hB] at hIH; simp at hIH
          | some rc =>
            rw [hB] at hIH
            simp [scrubOut] at hIH
            obtain ⟨hv, htr, hlg⟩ := hIH
            cases hval : rc.value with
            | none =>
              have hv1 : rc1.value = none := by rw [hv, hval]
              simp [hval, hv1, scrubGoOut, scrubList_append, scrubList,
                scrubList_scrubList, hpre, htr, hlg, hlen]
            | some st =>
              have hv1 : rc1.value = some st := by rw [hv, hval]
              cases st with
              | Failure =>
                simp [hval, hv1, scrubGoOut, scrubList_append, scrubList,
                  scrubList_scrubList, hpre, htr, hlg, hlen]
              | Running =>
                simp [hval, hv1, scrubGoOut, scrubList_append, scrubList,
                  scrubList_scrubList, hpre, htr, hlg, hlen]
              | Success =>
                simp only [hval, hv1, scrubList_isEmpty]
                cases hrs : rs.isEmpty with
                | true =>
                  simp [hrs, scrubGoOut, scrubList_append, scrubList, hpre, htr, hlg]
                | false =>
                  have hpre2 : scrubList (pre1 ++ [rc1.tree])
                      = scrubList (pre2 ++ [rc.tree]) := by
                    simp [scrubList_append, scrubList, hpre, htr]
                  have G2 := ihseq rs hszrs s (pre1 ++ [rc1.tree]) (pre2 ++ [rc.tree]) hpre2
                  simp only [hrs, Bool.cond_false]
                  cases hA2 : seqGo s (pre1 ++ [rc1.tree]) (scrubList rs) with
                  | none =>
                    rw [hA2] at G2
                    cases hB2 : seqGo s (pre2 ++ [rc.tree]) rs with
                    | none => simp
                    | some g => rw [hB2] at G2; simp at G2
                  | some g1 =>
                    rw [hA2] at G2
                    cases hB2 : seqGo s (pre2 ++ [rc.tree]) rs with
                    | none => rw [hB2] at G2; simp at G2
                    | some g =>
                      rw [hB2] at G2
                      simp [scrubGoOut] at G2
                      obtain ⟨hgv, hgch, hgi, hgl⟩ := G2
                      simp [scrubGoOut, hgv, hgch, hgi, hgl, hlg]
    · -- the Selector-loop component
      intro rest hsz s pre1 pre2 hpre
      have hlen : pre1.length = pre2.length := by
        have h1 := scrubList_length pre1
        have h2 := scrubList_length (σ := σ) pre2
        rw [hpre] at h1
        omega
      cases rest with
      | nil => simp [scrubList, selGo]
      | cons c rs =>
        have hszc : sizeOf c ≤ N := by
          have h2 : sizeOf (c :: rs) = 1 + sizeOf c + sizeOf rs := by simp_arith
          omega
        have hszrs : sizeOf rs ≤ N := by
          have h2 : sizeOf (c :: rs) = 1 + sizeOf c + sizeOf rs := by simp_arith
          omega
        have hIH := iht c hszc s
        rw [show scrubList (c :: rs) = scrub c :: scrubList rs from by simp [scrubList]]
        rw [selGo_cons, selGo_cons]
        cases hA : tick (scrub c) s with
        | none =>
          rw [hA] at hIH
          cases hB : tick c s with
          | none => simp
          | some rc => rw [hB] at hIH; simp at hIH
        | some rc1 =>
          rw [hA] at hIH
          cases hB : tick c s with
          | none => rw [hB] at hIH; simp at hIH
          | some rc =>
            rw [hB] at hIH
            simp [scrubOut] at hIH
            obtain ⟨hv, htr, hlg⟩ := hIH
            have hcont : ∀ hval : rc.value = some Status.Failure ∨ rc.value = none,
                (Option.map scrubGoOut
                  (cond (scrubList rs).isEmpty
                    (some ⟨none, pre1 ++ [rc1.tree], 0, rc1.log⟩)
                    ((selGo s (pre1 ++ [rc1.tree]) (scrubList rs)).map
                      (fun g => ⟨g.value, g.children, g.index, rc1.log ++ g.log⟩))))
                = (Option.map scrubGoOut
                  (cond rs.isEmpty
                    (some ⟨none, pre2 ++ [rc.tree], 0, rc.log⟩)
                    ((selGo s (pre2 ++ [rc.tree]) rs).map
                      (fun g => ⟨g.value, g.children, g.index, rc.log ++ g.log⟩)))) := by
              intro hval
              rw [scrubList_isEmpty]
              cases hrs : rs.isEmpty with
              | true =>
                simp [scrubGoOut, scrubList_append, scrubList, hpre, htr, hlg]
              | false =>
                have hpre2 : scrubList (pre1 ++ [rc1.tree])
                    = scrubList (pre2 ++ [rc.tree]) := by
                  simp [scrubList_append, scrubList, hpre, htr]
                have G2 := ihsel rs hszrs s (pre1 ++ [rc1.tree]) (pre2 ++ [rc.tree]) hpre2
                simp only [Bool.cond_false]
                cases hA2 : selGo s (pre1 ++ [rc1.tree]) (scrubList rs) with
                | none =>
                  rw [hA2] at G2
                  cases hB2 : selGo s (pre2 ++ [rc.tree]) rs with
                  | none => simp
                  | some g => rw [hB2] at G2; simp at G2
                | some g1 =>
                  rw [hA2] at G2
                  cases hB2 : selGo s (pre2 ++ [rc.tree]) rs with
                  | none => rw [hB2] at G2; simp at G2
                  | some g =>
                    rw [hB2] at G2
                    simp [scrubGoOut] at G2
                    obtain ⟨hgv, hgch, hgi, hgl⟩ := G2
                    simp [scrubGoOut, hgv, hgch, hgi, hgl, hlg]
            cases hval : rc.value with
            | none =>
              have hv1 : rc1.value = none := by rw [hv, hval]
              simp only [hval, hv1]
              exact hcont (Or.inr hval)
            | some st =>
              have hv1 : rc1.value = some st := by rw [hv, hval]
              cases st with
              | Running =>
                simp [hval, hv1, scrubGoOut, scrubList_append, scrubList,
                  scrubList_scrubList, hpre, htr, hlg, hlen]
              | Success =>
                simp [hval, hv1, scrubGoOut, scrubList_append, scrubList,
                  scrubList_scrubList, hpre, htr, hlg, hlen]
              | Failure =>
                simp only [hval, hv1]
                exact hcont (Or.inl hval)

/-- Up to `should_skip`, ticking `scrub t` and ticking `t` agree. -/
theorem tick_scrub (t : Tree σ) (s : σ) :
    (tick (scrub t) s).map scrubOut = (tick t s).map scrubOut :=
  (tick_scrub_aux (sizeOf t)).1 t (Nat.le_refl _) s

/-- **C8.**  The `should_skip` flags are dead state: two trees that differ only
in their `should_skip` values (`scrub t1 = scrub t2`) behave identically under
`tick` — they fault together, return the same value, perform the same
world-handle operations, and leave resulting trees that again differ at most in
`should_skip`.  In particular `should_skip` is written but never read in the
tick path. -/
theorem C8_should_skip_noninterference (t1 t2 : Tree σ) (s : σ)
    (h : scrub t1 = scrub t2) :
    (tick t1 s).map scrubOut = (tick t2 s).map scrubOut := by
  have h1 := tick_scrub t1 s
  have h2 := tick_scrub t2 s
  rw [← h1, ← h2, h]

/-- **C8, witness**: two `delay` nodes differing only in `should_skip` tick to
the same observation. -/
theorem C8_witness :
    (tick (Tree.delayD (some alwaysOk) ⟨none, false, true⟩) ()).map scrubOut
      = (tick (Tree.delayD (some alwaysOk) ⟨none, false, false⟩) ()).map scrubOut :=
  C8_should_skip_noninterference
    (Tree.delayD (some alwaysOk) ⟨none, false, true⟩)
    (Tree.delayD (some alwaysOk) ⟨none, false, false⟩)
    () (by simp [scrub, alwaysOk])


end Player
